import Mathlib

/-!
Verification of the frame-graph store, path resolver and transform composer of
the foxglove wrench-stamped panel (`src/WrenchPanel.tsx`).

The TypeScript core is shallowly embedded below:
* JS numbers are idealised as exact rationals `ℚ`;
* the JS `Map<string, TFTreeNode>` is an insertion-ordered association list
  (`Map.set` overwrites in place, `Map.forEach` iterates in insertion order);
* the `while` loop of the breadth-first search is given an explicit fuel
  argument, and the fuel bound `fuelBound` is proved sufficient, so
  `findTransformPath` computes exactly what the source loop computes.
-/

namespace WrenchTF

/-- `Vector3` of `WrenchPanel.tsx` (lines 18-22), over exact rationals. -/
structure Vector3 where
  x : ℚ
  y : ℚ
  z : ℚ
deriving DecidableEq

/-- The rotation quaternion record of the `Transform` interface (lines 36-41). -/
structure Quaternion where
  x : ℚ
  y : ℚ
  z : ℚ
  w : ℚ
deriving DecidableEq

/-- `Transform` of `WrenchPanel.tsx` (lines 34-42). -/
structure Transform where
  translation : Vector3
  rotation : Quaternion
deriving DecidableEq

/-- The `stamp` field of `Header` (line 14). -/
structure Stamp where
  sec : ℚ
  nsec : ℚ
deriving DecidableEq

/-- `Header` of `WrenchPanel.tsx` (lines 12-15). -/
structure Header where
  frame_id : String
  stamp : Stamp
deriving DecidableEq

/-- `TransformStamped` of `WrenchPanel.tsx` (lines 44-48). -/
structure TransformStamped where
  header : Header
  child_frame_id : String
  transform : Transform
deriving DecidableEq

/-- `TFMessage` of `WrenchPanel.tsx` (lines 50-52). -/
structure TFMessage where
  transforms : List TransformStamped
deriving DecidableEq

/-- `TFTreeNode` of `WrenchPanel.tsx` (lines 59-64); `parent_frame_id` is the
optional field `parent_frame_id?: string`. -/
structure TFTreeNode where
  frame_id : String
  parent_frame_id : Option String
  transform : Transform
  timestamp : ℚ
deriving DecidableEq

/-- The `Map<string, TFTreeNode>` state `tfTree`, as an insertion-ordered
association list. -/
abbrev TFTree := List (String × TFTreeNode)

/-- JS `Map.get`: the value of the (unique, in an actual `Map`) entry with the
given key; for lists with duplicate keys the first entry wins. -/
def mapGet : TFTree → String → Option TFTreeNode
  | [], _ => none
  | e :: rest, k => if e.1 = k then some e.2 else mapGet rest k

/-- JS `Map.has`. -/
def mapHas : TFTree → String → Bool
  | [], _ => false
  | e :: rest, k => if e.1 = k then true else mapHas rest k

/-- Overwrite every entry carrying the given key, in place. -/
def mapReplace : TFTree → String → TFTreeNode → TFTree
  | [], _, _ => []
  | e :: rest, k, v =>
    if e.1 = k then (k, v) :: mapReplace rest k v else e :: mapReplace rest k v

/-- JS `Map.set`: overwrite in place when the key already exists (keeping the
entry's position in iteration order), otherwise append a new entry. -/
def mapSet (m : TFTree) (k : String) (v : TFTreeNode) : TFTree :=
  if mapHas m k then mapReplace m k v else m ++ [(k, v)]

/-- The keys of the tree, in iteration order. -/
def keys (m : TFTree) : List String := m.map (·.1)

/-- The identity transform literal that appears at lines 206-208 and 263-266
of `WrenchPanel.tsx`. -/
def identityTransform : Transform :=
  { translation := { x := 0, y := 0, z := 0 }
  , rotation := { x := 0, y := 0, z := 0, w := 1 } }

/-- `transform.header.stamp.sec * 1e9 + transform.header.stamp.nsec`
(line 192). -/
def stampNanos (t : TransformStamped) : ℚ :=
  t.header.stamp.sec * 1000000000 + t.header.stamp.nsec

/-- The child node written at lines 195-200: parent, transform and timestamp
are overwritten from the update. -/
def childNodeOf (t : TransformStamped) : TFTreeNode :=
  { frame_id := t.child_frame_id
  , parent_frame_id := some t.header.frame_id
  , transform := t.transform
  , timestamp := stampNanos t }

/-- The parent placeholder node written at lines 204-211: a root (no
`parent_frame_id`) with identity transform and the update's timestamp. -/
def rootNodeOf (t : TransformStamped) : TFTreeNode :=
  { frame_id := t.header.frame_id
  , parent_frame_id := none
  , transform := identityTransform
  , timestamp := stampNanos t }

/-- The body of the inner `forEach` of `updateTFTree` (lines 189-213): upsert
the child node, then insert the parent as a root placeholder if it is still
absent (the check runs on the tree that already contains the child). -/
def applyTransformStamped (tree : TFTree) (t : TransformStamped) : TFTree :=
  let tree1 := mapSet tree t.child_frame_id (childNodeOf t)
  if mapHas tree1 t.header.frame_id then tree1
  else mapSet tree1 t.header.frame_id (rootNodeOf t)

/-- `updateTFTree` (lines 184-218): fold every `TransformStamped` of every
message, in input order, into the tree. -/
def updateTFTree (tree : TFTree) (newTfMessages : List TFMessage) : TFTree :=
  newTfMessages.foldl (fun acc msg => msg.transforms.foldl applyTransformStamped acc) tree

/-- One `forEach` pass over the tree inside the BFS loop (lines 244-254): for
each entry, push it if it is a child of `frame` (line 246), and push it if the
entry's key equals the entry's own `parent_frame_id` while its `frame_id`
equals `frame` (line 251 — the source's literal condition). `visited` already
contains `frame` when this runs. -/
def bfsNeighbors (tree : TFTree) (visited : List String) (frame : String)
    (path : List String) : List (String × List String) :=
  tree.flatMap (fun e =>
    (if e.2.parent_frame_id = some frame ∧ e.1 ∉ visited
      then [(e.1, path ++ [e.1])] else []) ++
    (if some e.1 = e.2.parent_frame_id ∧ e.2.frame_id = frame ∧ e.1 ∉ visited
      then [(e.1, path ++ [e.1])] else []))

/-- The `while (queue.length > 0)` loop of `findTransformPath` (lines
230-255), with explicit fuel.  Dequeue from the front; return the recorded
path when the target is dequeued; skip visited frames; otherwise mark visited
and append the neighbor pushes to the back of the queue.  `none` means the
fuel ran out (shown impossible for `fuelBound` below). -/
def bfsLoop (tree : TFTree) (targetFrame : String) :
    Nat → List String → List (String × List String) → Option (List String)
  | _, _, [] => some []
  | 0, _, _ :: _ => none
  | fuel + 1, visited, (frame, path) :: rest =>
    if frame = targetFrame then some path
    else if frame ∈ visited then bfsLoop tree targetFrame fuel visited rest
    else bfsLoop tree targetFrame fuel (frame :: visited)
      (rest ++ bfsNeighbors tree (frame :: visited) frame path)

/-- Fuel that the termination proof shows is never exhausted by `bfsLoop`. -/
def fuelBound (tree : TFTree) : Nat :=
  (tree.length + 1) * (2 * tree.length + 2) + 2

/-- `findTransformPath` (lines 221-258): the `source == target` early return,
then the BFS; an exhausted queue yields the empty path. -/
def findTransformPath (tree : TFTree) (sourceFrame targetFrame : String) : List String :=
  if sourceFrame = targetFrame then [sourceFrame]
  else (bfsLoop tree targetFrame (fuelBound tree) [] [(sourceFrame, [sourceFrame])]).getD []

/-- Modelled from the spec: the Transform Primitive (spec §4.1) is realised in
the source by `THREE.Quaternion`/`THREE.Matrix4`, library code that is not in
`src/`.  Quaternion product, as in standard rigid-transform composition. -/
def quatMul (a b : Quaternion) : Quaternion :=
  { x := a.w * b.x + a.x * b.w + a.y * b.z - a.z * b.y
  , y := a.w * b.y + a.y * b.w + a.z * b.x - a.x * b.z
  , z := a.w * b.z + a.z * b.w + a.x * b.y - a.y * b.x
  , w := a.w * b.w - a.x * b.x - a.y * b.y - a.z * b.z }

/-- Componentwise vector sum. -/
def vadd (a b : Vector3) : Vector3 :=
  { x := a.x + b.x, y := a.y + b.y, z := a.z + b.z }

/-- Scalar multiple of a vector. -/
def vsmul (c : ℚ) (a : Vector3) : Vector3 :=
  { x := c * a.x, y := c * a.y, z := c * a.z }

/-- Cross product. -/
def cross (a b : Vector3) : Vector3 :=
  { x := a.y * b.z - a.z * b.y
  , y := a.z * b.x - a.x * b.z
  , z := a.x * b.y - a.y * b.x }

/-- Modelled from the spec: rotation of a vector by a (unit) quaternion,
`v + 2w (u × v) + 2 u × (u × v)` — the action the source obtains through the
`THREE.Matrix4` rotation block (library code not in `src/`). -/
def quatApply (q : Quaternion) (v : Vector3) : Vector3 :=
  let u : Vector3 := { x := q.x, y := q.y, z := q.z }
  vadd v (vadd (vsmul (2 * q.w) (cross u v)) (vsmul 2 (cross u (cross u v))))

/-- Quaternion conjugate — the rotation inverse for unit quaternions. -/
def quatConj (q : Quaternion) : Quaternion :=
  { x := -q.x, y := -q.y, z := -q.z, w := q.w }

/-- Modelled from the spec: `compose(a, b)` — "apply b, then a" (§4.1),
mirroring `resultTransform.multiply(mat)` on homogeneous matrices with unit
scale (THREE library code not in `src/`). -/
def composeT (a b : Transform) : Transform :=
  { translation := vadd a.translation (quatApply a.rotation b.translation)
  , rotation := quatMul a.rotation b.rotation }

/-- Modelled from the spec: `invert(t)` — exact algebraic inverse of a rigid
transform (§4.1), mirroring `THREE.Matrix4.invert` on rigid matrices (library
code not in `src/`). -/
def invertT (t : Transform) : Transform :=
  { translation := quatApply (quatConj t.rotation) (vsmul (-1) t.translation)
  , rotation := quatConj t.rotation }

/-- The per-edge transform lookup of `computeTransform` (lines 285-304): use
`to`'s transform when `to` is a child of `from`; otherwise use the inverse of
`from`'s transform when `from` is a child of `to`; otherwise the edge is
missing. -/
def edgeTransform (tree : TFTree) (fromFrame toFrame : String) : Option Transform :=
  let rev : Option Transform :=
    match mapGet tree fromFrame with
    | some fromNode =>
      if fromNode.parent_frame_id = some toFrame then some (invertT fromNode.transform)
      else none
    | none => none
  match mapGet tree toFrame with
  | some toNode =>
    if toNode.parent_frame_id = some fromFrame then some toNode.transform else rev
  | none => rev

/-- The accumulation loop of `computeTransform` (lines 280-333): walk the
consecutive pairs of the path, multiplying each edge transform onto the
accumulator, with an early `null` on a missing edge. -/
def composeAlong (tree : TFTree) : Transform → List String → Option Transform
  | acc, fromFrame :: toFrame :: restPath =>
    match edgeTransform tree fromFrame toFrame with
    | some m => composeAlong tree (composeT acc m) (toFrame :: restPath)
    | none => none
  | acc, _ => some acc

/-- `computeTransform` (lines 261-346): identity on `source == target`, `null`
on a path shorter than 2, otherwise the composed chain. -/
def computeTransform (tree : TFTree) (sourceFrame targetFrame : String) : Option Transform :=
  if sourceFrame = targetFrame then some identityTransform
  else
    let path := findTransformPath tree sourceFrame targetFrame
    if path.length < 2 then none
    else composeAlong tree identityTransform path

/-- The concrete update of the spec's §8 scenario: child `"sensor"`, parent
`"world"`, translation `(1,0,0)`, identity rotation, timestamp `100`. -/
def demoTransform : Transform :=
  { translation := { x := 1, y := 0, z := 0 }
  , rotation := { x := 0, y := 0, z := 0, w := 1 } }

/-- The scenario update wrapped as a `TFMessage`. -/
def demoMsg : TFMessage :=
  { transforms := [
    { header := { frame_id := "world", stamp := { sec := 0, nsec := 100 } }
    , child_frame_id := "sensor"
    , transform := demoTransform }] }

/-- The graph obtained by applying the scenario update to an empty graph. -/
def demoTree : TFTree := updateTFTree [] [demoMsg]

/-! ### Lemmas about the `Map` embedding -/

theorem mapHas_iff (m : TFTree) (k : String) :
    mapHas m k = true ↔ ∃ e ∈ m, e.1 = k := by
  induction m with
  | nil => simp [mapHas]
  | cons e rest ih =>
    by_cases hk : e.1 = k <;> simp [mapHas, hk, ih]

theorem mapHas_append (m l : TFTree) (k : String) :
    mapHas (m ++ l) k = (mapHas m k || mapHas l k) := by
  induction m with
  | nil => simp [mapHas]
  | cons e rest ih =>
    by_cases hk : e.1 = k <;> simp [mapHas, hk, ih]

theorem mapHas_mapReplace_iff (m : TFTree) (k : String) (v : TFTreeNode) (k' : String) :
    mapHas (mapReplace m k v) k' = true ↔
      ((mapHas m k = true ∧ k = k') ∨ mapHas m k' = true) := by
  induction m with
  | nil => simp [mapHas, mapReplace]
  | cons e rest ih =>
    by_cases hk : e.1 = k
    · by_cases hk' : k = k' <;>
        simp [mapReplace, mapHas, hk, hk', ih]
    · by_cases hk' : e.1 = k'
      · have hkk : ¬ k' = k := fun hh => hk (by rw [hk', hh])
        simp [mapReplace, mapHas, hk, hk', hkk]
      · simp [mapReplace, mapHas, hk, hk', ih]

theorem mapHas_mapSet_iff (m : TFTree) (k : String) (v : TFTreeNode) (k' : String) :
    mapHas (mapSet m k v) k' = true ↔ (k' = k ∨ mapHas m k' = true) := by
  unfold mapSet
  by_cases h : mapHas m k
  · rw [if_pos h, mapHas_mapReplace_iff]
    constructor
    · rintro (⟨_, rfl⟩ | h1)
      · exact Or.inl rfl
      · exact Or.inr h1
    · rintro (rfl | h1)
      · exact Or.inl ⟨h, rfl⟩
      · exact Or.inr h1
  · rw [if_neg h]
    rw [show mapHas (m ++ [(k, v)]) k' = (mapHas m k' || mapHas [(k, v)] k') from
      mapHas_append m [(k, v)] k']
    have hsing : mapHas [(k, v)] k' = true ↔ k = k' := by
      by_cases hkk : k = k' <;> simp [mapHas, hkk]
    rw [Bool.or_eq_true, hsing]
    constructor
    · rintro (h1 | h1)
      · exact Or.inr h1
      · exact Or.inl h1.symm
    · rintro (rfl | h1)
      · exact Or.inr rfl
      · exact Or.inl h1

theorem mapHas_mapSet_self (m : TFTree) (k : String) (v : TFTreeNode) :
    mapHas (mapSet m k v) k = true :=
  (mapHas_mapSet_iff m k v k).2 (Or.inl rfl)

theorem mapHas_mapSet_of (m : TFTree) (k : String) (v : TFTreeNode) (k' : String)
    (h : mapHas m k' = true) : mapHas (mapSet m k v) k' = true :=
  (mapHas_mapSet_iff m k v k').2 (Or.inr h)

theorem mem_mapReplace (m : TFTree) (k : String) (v : TFTreeNode) (e : String × TFTreeNode)
    (he : e ∈ mapReplace m k v) : e ∈ m ∨ e = (k, v) := by
  induction m with
  | nil => simp [mapReplace] at he
  | cons a rest ih =>
    by_cases hk : a.1 = k
    · simp only [mapReplace, if_pos hk, List.mem_cons] at he
      rcases he with rfl | he
      · exact Or.inr rfl
      · rcases ih he with h1 | h1
        · exact Or.inl (List.mem_cons_of_mem a h1)
        · exact Or.inr h1
    · simp only [mapReplace, if_neg hk, List.mem_cons] at he
      rcases he with rfl | he
      · exact Or.inl (List.mem_cons_self e rest)
      · rcases ih he with h1 | h1
        · exact Or.inl (List.mem_cons_of_mem a h1)
        · exact Or.inr h1

theorem mem_mapSet (m : TFTree) (k : String) (v : TFTreeNode) (e : String × TFTreeNode)
    (he : e ∈ mapSet m k v) : e ∈ m ∨ e = (k, v) := by
  unfold mapSet at he
  by_cases h : mapHas m k
  · rw [if_pos h] at he
    exact mem_mapReplace m k v e he
  · rw [if_neg h] at he
    rcases List.mem_append.1 he with h1 | h1
    · exact Or.inl h1
    · exact Or.inr (by simpa using h1)

theorem mem_mapReplace_key (m : TFTree) (k : String) (v : TFTreeNode)
    (e : String × TFTreeNode) (he : e ∈ mapReplace m k v) (hk : e.1 = k) : e = (k, v) := by
  induction m with
  | nil => simp [mapReplace] at he
  | cons a rest ih =>
    by_cases hak : a.1 = k
    · simp only [mapReplace, if_pos hak, List.mem_cons] at he
      rcases he with rfl | he
      · rfl
      · exact ih he
    · simp only [mapReplace, if_neg hak, List.mem_cons] at he
      rcases he with rfl | he
      · exact absurd hk hak
      · exact ih he

theorem mem_mapSet_key (m : TFTree) (k : String) (v : TFTreeNode) (e : String × TFTreeNode)
    (he : e ∈ mapSet m k v) (hk : e.1 = k) : e = (k, v) := by
  unfold mapSet at he
  by_cases h : mapHas m k
  · rw [if_pos h] at he
    exact mem_mapReplace_key m k v e he hk
  · rw [if_neg h] at he
    rcases List.mem_append.1 he with h1 | h1
    · exact absurd ((mapHas_iff m k).2 ⟨e, h1, hk⟩) (by simpa using h)
    · simpa using h1

theorem mapReplace_eq_self (m : TFTree) (k : String) (v : TFTreeNode)
    (h2 : ∀ e ∈ m, e.1 = k → e = (k, v)) : mapReplace m k v = m := by
  induction m with
  | nil => rfl
  | cons a rest ih =>
    by_cases hak : a.1 = k
    · have ha : a = (k, v) := h2 a (List.mem_cons_self a rest) hak
      show (if a.1 = k then (k, v) :: mapReplace rest k v else a :: mapReplace rest k v) =
        a :: rest
      rw [if_pos hak, ← ha, ih (fun e he hk => h2 e (List.mem_cons_of_mem a he) hk)]
    · show (if a.1 = k then (k, v) :: mapReplace rest k v else a :: mapReplace rest k v) =
        a :: rest
      rw [if_neg hak, ih (fun e he hk => h2 e (List.mem_cons_of_mem a he) hk)]

theorem mapSet_eq_self (m : TFTree) (k : String) (v : TFTreeNode)
    (h1 : mapHas m k = true) (h2 : ∀ e ∈ m, e.1 = k → e = (k, v)) :
    mapSet m k v = m := by
  unfold mapSet
  rw [if_pos h1, mapReplace_eq_self m k v h2]

theorem mapSet_mapSet_self (m : TFTree) (k : String) (v : TFTreeNode) :
    mapSet (mapSet m k v) k v = mapSet m k v :=
  mapSet_eq_self _ _ _ (mapHas_mapSet_self m k v) (fun e he => mem_mapSet_key m k v e he)

theorem mapGet_mapReplace_self (m : TFTree) (k : String) (v : TFTreeNode)
    (h : mapHas m k = true) : mapGet (mapReplace m k v) k = some v := by
  induction m with
  | nil => simp [mapHas] at h
  | cons a rest ih =>
    by_cases hak : a.1 = k
    · simp [mapReplace, mapGet, hak]
    · simp only [mapHas, if_neg hak] at h
      simp only [mapReplace, if_neg hak, mapGet, hak, if_false]
      exact ih h

theorem mapGet_mapSet_self (m : TFTree) (k : String) (v : TFTreeNode) :
    mapGet (mapSet m k v) k = some v := by
  unfold mapSet
  by_cases h : mapHas m k
  · rw [if_pos h]
    exact mapGet_mapReplace_self m k v h
  · rw [if_neg h]
    induction m with
    | nil => simp [mapGet]
    | cons a rest ih =>
      simp only [mapHas] at h
      by_cases hak : a.1 = k
      · simp [hak] at h
      · simp only [List.cons_append, mapGet, hak, if_false]
        exact ih (by simpa [hak] using h)

theorem mapGet_mapSet_ne (m : TFTree) (k : String) (v : TFTreeNode) (k' : String)
    (h : k' ≠ k) : mapGet (mapSet m k v) k' = mapGet m k' := by
  unfold mapSet
  by_cases hm : mapHas m k
  · rw [if_pos hm]
    clear hm
    induction m with
    | nil => rfl
    | cons a rest ih =>
      by_cases hak : a.1 = k
      · show mapGet (if a.1 = k then (k, v) :: mapReplace rest k v
            else a :: mapReplace rest k v) k' = mapGet (a :: rest) k'
        rw [if_pos hak]
        simp only [mapGet]
        rw [if_neg (Ne.symm h), if_neg (fun hh : a.1 = k' => h (by rw [← hh]; exact hak))]
        exact ih
      · show mapGet (if a.1 = k then (k, v) :: mapReplace rest k v
            else a :: mapReplace rest k v) k' = mapGet (a :: rest) k'
        rw [if_neg hak]
        simp only [mapGet]
        by_cases hak' : a.1 = k' <;> simp [hak', ih]
  · rw [if_neg hm]
    clear hm
    induction m with
    | nil => simp [mapGet, Ne.symm h]
    | cons a rest ih =>
      simp only [List.cons_append, mapGet]
      by_cases hak' : a.1 = k' <;> simp [hak', ih]

theorem mapGet_eq_of_mem_nodup (m : TFTree) (hnd : (keys m).Nodup) (k : String)
    (n : TFTreeNode) (h : (k, n) ∈ m) : mapGet m k = some n := by
  induction m with
  | nil => simp at h
  | cons e rest ih =>
    simp only [keys, List.map_cons, List.nodup_cons] at hnd
    rcases List.mem_cons.1 h with rfl | hrest
    · simp [mapGet]
    · have hek : e.1 ≠ k := by
        intro hk
        exact hnd.1 (by simpa [hk] using List.mem_map_of_mem Prod.fst hrest)
      simp only [mapGet, if_neg hek]
      exact ih hnd.2 hrest

/-! ### Lemmas about the frame-graph store -/

theorem foldl_preserve {α β : Type} (P : β → Prop) (f : β → α → β)
    (hf : ∀ b a, P b → P (f b a)) :
    ∀ (l : List α) (b : β), P b → P (l.foldl f b)
  | [], _, hb => hb
  | a :: l, b, hb => foldl_preserve P f hf l (f b a) (hf b a hb)

theorem mapHas_applyTransformStamped (tree : TFTree) (t : TransformStamped) (k : String)
    (h : mapHas tree k = true) : mapHas (applyTransformStamped tree t) k = true := by
  unfold applyTransformStamped
  have h1 := mapHas_mapSet_of tree t.child_frame_id (childNodeOf t) k h
  by_cases hp : mapHas (mapSet tree t.child_frame_id (childNodeOf t)) t.header.frame_id
  · rw [if_pos hp]
    exact h1
  · rw [if_neg hp]
    exact mapHas_mapSet_of _ _ _ _ h1

theorem mapHas_updateTFTree (tree : TFTree) (msgs : List TFMessage) (k : String)
    (h : mapHas tree k = true) : mapHas (updateTFTree tree msgs) k = true := by
  unfold updateTFTree
  refine foldl_preserve (fun tr => mapHas tr k = true)
    (fun acc msg => msg.transforms.foldl applyTransformStamped acc) ?_ msgs tree h
  intro b msg hb
  exact foldl_preserve (fun tr => mapHas tr k = true) applyTransformStamped
    (fun b' t hb' => mapHas_applyTransformStamped b' t k hb') msg.transforms b hb

theorem applyTransformStamped_get_child (tree : TFTree) (t : TransformStamped) :
    mapGet (applyTransformStamped tree t) t.child_frame_id = some (childNodeOf t) := by
  unfold applyTransformStamped
  by_cases hp : mapHas (mapSet tree t.child_frame_id (childNodeOf t)) t.header.frame_id
  · rw [if_pos hp]
    exact mapGet_mapSet_self tree t.child_frame_id (childNodeOf t)
  · rw [if_neg hp]
    have hpc : t.child_frame_id ≠ t.header.frame_id := by
      intro hh
      exact hp (by rw [← hh]; exact mapHas_mapSet_self tree t.child_frame_id (childNodeOf t))
    rw [mapGet_mapSet_ne _ t.header.frame_id (rootNodeOf t) t.child_frame_id hpc]
    exact mapGet_mapSet_self tree t.child_frame_id (childNodeOf t)

theorem applyTransformStamped_get_parent (tree : TFTree) (t : TransformStamped) :
    mapGet (applyTransformStamped tree t) t.header.frame_id =
      (if t.header.frame_id = t.child_frame_id then some (childNodeOf t)
       else if mapHas tree t.header.frame_id then mapGet tree t.header.frame_id
       else some (rootNodeOf t)) := by
  unfold applyTransformStamped
  by_cases hpc : t.header.frame_id = t.child_frame_id
  · rw [if_pos hpc]
    have h1 : mapHas (mapSet tree t.child_frame_id (childNodeOf t)) t.header.frame_id = true := by
      rw [hpc]
      exact mapHas_mapSet_self tree t.child_frame_id (childNodeOf t)
    rw [if_pos h1, hpc]
    exact mapGet_mapSet_self tree t.child_frame_id (childNodeOf t)
  · rw [if_neg hpc]
    by_cases hh : mapHas tree t.header.frame_id
    · have h1 : mapHas (mapSet tree t.child_frame_id (childNodeOf t)) t.header.frame_id = true :=
        mapHas_mapSet_of tree t.child_frame_id (childNodeOf t) t.header.frame_id hh
      rw [if_pos h1, if_pos hh]
      exact mapGet_mapSet_ne tree t.child_frame_id (childNodeOf t) t.header.frame_id hpc
    · have h1 : ¬ mapHas (mapSet tree t.child_frame_id (childNodeOf t)) t.header.frame_id = true := by
        intro hcon
        rcases (mapHas_mapSet_iff tree t.child_frame_id (childNodeOf t)
          t.header.frame_id).1 hcon with h2 | h2
        · exact hpc h2
        · exact hh h2
      rw [if_neg h1, if_neg hh]
      exact mapGet_mapSet_self _ t.header.frame_id (rootNodeOf t)

theorem applyTransformStamped_idem (tree : TFTree) (t : TransformStamped) :
    applyTransformStamped (applyTransformStamped tree t) t = applyTransformStamped tree t := by
  by_cases hp : mapHas (mapSet tree t.child_frame_id (childNodeOf t)) t.header.frame_id
  · have hr : applyTransformStamped tree t = mapSet tree t.child_frame_id (childNodeOf t) := by
      unfold applyTransformStamped
      rw [if_pos hp]
    rw [hr]
    unfold applyTransformStamped
    rw [mapSet_mapSet_self, if_pos hp]
  · have hr : applyTransformStamped tree t
        = mapSet (mapSet tree t.child_frame_id (childNodeOf t)) t.header.frame_id (rootNodeOf t) := by
      unfold applyTransformStamped
      rw [if_neg hp]
    have hpc : t.header.frame_id ≠ t.child_frame_id := by
      intro hh
      exact hp (by rw [hh]; exact mapHas_mapSet_self tree t.child_frame_id (childNodeOf t))
    have hset : mapSet (mapSet (mapSet tree t.child_frame_id (childNodeOf t))
          t.header.frame_id (rootNodeOf t)) t.child_frame_id (childNodeOf t)
        = mapSet (mapSet tree t.child_frame_id (childNodeOf t)) t.header.frame_id (rootNodeOf t) := by
      apply mapSet_eq_self
      · exact mapHas_mapSet_of _ t.header.frame_id (rootNodeOf t) t.child_frame_id
          (mapHas_mapSet_self tree t.child_frame_id (childNodeOf t))
      · intro e he hek
        rcases mem_mapSet _ t.header.frame_id (rootNodeOf t) e he with h1 | h1
        · exact mem_mapSet_key tree t.child_frame_id (childNodeOf t) e h1 hek
        · rw [h1] at hek
          exact absurd hek hpc
    rw [hr]
    unfold applyTransformStamped
    rw [hset]
    rw [if_pos (mapHas_mapSet_self (mapSet tree t.child_frame_id (childNodeOf t))
      t.header.frame_id (rootNodeOf t))]

/-- Well-formedness of the tree: every entry's key is the node's `frame_id`
(map keys and node `frame_id`s agree — maintained by `updateTFTree`). -/
def WFtree (tree : TFTree) : Prop := ∀ e ∈ tree, e.2.frame_id = e.1

/-- Every root node of the tree (absent `parent_frame_id`) carries the
identity transform — placeholder parents are only ever written as identity. -/
def RootsIdentity (tree : TFTree) : Prop :=
  ∀ e ∈ tree, e.2.parent_frame_id = none → e.2.transform = identityTransform

/-- Trees reachable by the program: an initial empty `Map` followed by any
sequence of `updateTFTree` batches. -/
inductive Built : TFTree → Prop where
  | empty : Built []
  | step (tree : TFTree) (msgs : List TFMessage) : Built tree → Built (updateTFTree tree msgs)

theorem invariant_applyTransformStamped (tree : TFTree) (t : TransformStamped)
    (h : WFtree tree ∧ RootsIdentity tree) :
    WFtree (applyTransformStamped tree t) ∧ RootsIdentity (applyTransformStamped tree t) := by
  have hmem : ∀ e ∈ applyTransformStamped tree t,
      e ∈ tree ∨ e = (t.child_frame_id, childNodeOf t) ∨ e = (t.header.frame_id, rootNodeOf t) := by
    intro e he
    unfold applyTransformStamped at he
    by_cases hp : mapHas (mapSet tree t.child_frame_id (childNodeOf t)) t.header.frame_id
    · rw [if_pos hp] at he
      rcases mem_mapSet tree t.child_frame_id (childNodeOf t) e he with h1 | h1
      · exact Or.inl h1
      · exact Or.inr (Or.inl h1)
    · rw [if_neg hp] at he
      rcases mem_mapSet _ t.header.frame_id (rootNodeOf t) e he with h1 | h1
      · rcases mem_mapSet tree t.child_frame_id (childNodeOf t) e h1 with h2 | h2
        · exact Or.inl h2
        · exact Or.inr (Or.inl h2)
      · exact Or.inr (Or.inr h1)
  constructor
  · intro e he
    rcases hmem e he with h1 | h1 | h1
    · exact h.1 e h1
    · rw [h1]
      rfl
    · rw [h1]
      rfl
  · intro e he hroot
    rcases hmem e he with h1 | h1 | h1
    · exact h.2 e h1 hroot
    · rw [h1] at hroot
      exact absurd hroot (by simp [childNodeOf])
    · rw [h1]
      rfl

theorem invariant_built (tree : TFTree) (h : Built tree) :
    WFtree tree ∧ RootsIdentity tree := by
  induction h with
  | empty => exact ⟨fun e he => absurd he (List.not_mem_nil e), fun e he => absurd he (List.not_mem_nil e)⟩
  | step tr msgs _ ih =>
    unfold updateTFTree
    refine foldl_preserve (fun tr' => WFtree tr' ∧ RootsIdentity tr')
      (fun acc msg => msg.transforms.foldl applyTransformStamped acc) ?_ msgs tr ih
    intro b msg hb
    exact foldl_preserve (fun tr' => WFtree tr' ∧ RootsIdentity tr') applyTransformStamped
      (fun b' t' hb' => invariant_applyTransformStamped b' t' hb') msg.transforms b hb

/-! ### Lemmas about the breadth-first search -/

/-- A directed child edge recorded in the tree: some entry keyed `b` names `a`
as its parent. -/
def childEdge (tree : TFTree) (a b : String) : Prop :=
  ∃ e ∈ tree, e.1 = b ∧ e.2.parent_frame_id = some a

/-- The undirected adjacency between frames induced by the stored transforms:
one of the two frames is recorded as the parent of the other. -/
def undirEdge (tree : TFTree) (a b : String) : Prop :=
  childEdge tree a b ∨ childEdge tree b a

theorem mem_bfsNeighbors (tree : TFTree) (visited : List String) (frame : String)
    (path : List String) (gq : String × List String) :
    gq ∈ bfsNeighbors tree visited frame path ↔
      ∃ e ∈ tree, gq = (e.1, path ++ [e.1]) ∧ e.1 ∉ visited ∧
        (e.2.parent_frame_id = some frame ∨
         (some e.1 = e.2.parent_frame_id ∧ e.2.frame_id = frame)) := by
  unfold bfsNeighbors
  rw [List.mem_flatMap]
  constructor
  · rintro ⟨e, he, hmem⟩
    refine ⟨e, he, ?_⟩
    rcases List.mem_append.1 hmem with h1 | h1
    · split at h1
      · rename_i hc
        simp only [List.mem_singleton] at h1
        exact ⟨h1, hc.2, Or.inl hc.1⟩
      · simp at h1
    · split at h1
      · rename_i hc
        simp only [List.mem_singleton] at h1
        exact ⟨h1, hc.2.2, Or.inr ⟨hc.1, hc.2.1⟩⟩
      · simp at h1
  · rintro ⟨e, he, rfl, hnv, hor⟩
    refine ⟨e, he, ?_⟩
    rcases hor with h1 | h1
    · refine List.mem_append.2 (Or.inl ?_)
      rw [if_pos ⟨h1, hnv⟩]
      exact List.mem_singleton.2 rfl
    · refine List.mem_append.2 (Or.inr ?_)
      rw [if_pos ⟨h1.1, h1.2, hnv⟩]
      exact List.mem_singleton.2 rfl

theorem bfsNeighbors_length_le (tree : TFTree) (visited : List String) (frame : String)
    (path : List String) :
    (bfsNeighbors tree visited frame path).length ≤ 2 * tree.length := by
  unfold bfsNeighbors
  induction tree with
  | nil => simp
  | cons e rest ih =>
    simp only [List.flatMap_cons, List.length_append, List.length_cons]
    have a1 : (if e.2.parent_frame_id = some frame ∧ e.1 ∉ visited
        then [(e.1, path ++ [e.1])] else []).length ≤ 1 := by
      split <;> simp
    have a2 : (if some e.1 = e.2.parent_frame_id ∧ e.2.frame_id = frame ∧ e.1 ∉ visited
        then [(e.1, path ++ [e.1])] else []).length ≤ 1 := by
      split <;> simp
    omega

theorem bfsLoop_isSome (tree : TFTree) (target : String) (F : Finset String)
    (hKeys : ∀ e ∈ tree, e.1 ∈ F) :
    ∀ (fuel : Nat) (visited : List String) (queue : List (String × List String)),
      (∀ fp ∈ queue, fp.1 ∈ F) →
      (F \ visited.toFinset).card * (2 * tree.length + 2) + queue.length < fuel →
      (bfsLoop tree target fuel visited queue).isSome = true := by
  intro fuel
  induction fuel with
  | zero =>
    intro visited queue _ hm
    exact absurd hm (Nat.not_lt_zero _)
  | succ fuel ih =>
    intro visited queue hq hm
    cases queue with
    | nil => simp [bfsLoop]
    | cons fp rest =>
      obtain ⟨frame, path⟩ := fp
      simp only [bfsLoop]
      by_cases ht : frame = target
      · rw [if_pos ht]
        rfl
      · rw [if_neg ht]
        by_cases hv : frame ∈ visited
        · rw [if_pos hv]
          apply ih visited rest (fun fp hfp => hq fp (List.mem_cons_of_mem _ hfp))
          simp only [List.length_cons] at hm
          omega
        · rw [if_neg hv]
          apply ih
          · intro fp hfp
            rcases List.mem_append.1 hfp with h1 | h1
            · exact hq fp (List.mem_cons_of_mem _ h1)
            · rcases (mem_bfsNeighbors tree (frame :: visited) frame path fp).1 h1 with
                ⟨e, he, heq, _, _⟩
              rw [heq]
              exact hKeys e he
          · have hf : frame ∈ F := hq (frame, path) (List.mem_cons_self _ _)
            have hfd : frame ∈ F \ visited.toFinset :=
              Finset.mem_sdiff.2 ⟨hf, fun hc => hv (List.mem_toFinset.1 hc)⟩
            have hsd : F \ (frame :: visited).toFinset = (F \ visited.toFinset).erase frame := by
              ext x
              simp only [List.toFinset_cons, Finset.mem_sdiff, Finset.mem_insert,
                Finset.mem_erase]
              tauto
            have hcard : (F \ (frame :: visited).toFinset).card + 1
                = (F \ visited.toFinset).card := by
              rw [hsd, Finset.card_erase_of_mem hfd]
              have hpos : 0 < (F \ visited.toFinset).card := Finset.card_pos.2 ⟨frame, hfd⟩
              omega
            have hnb := bfsNeighbors_length_le tree (frame :: visited) frame path
            simp only [List.length_append, List.length_cons] at hm ⊢
            rw [← hcard] at hm
            rw [Nat.succ_mul] at hm
            omega


theorem bfsLoop_total (tree : TFTree) (s t : String) :
    ∃ p, bfsLoop tree t (fuelBound tree) [] [(s, [s])] = some p := by
  refine Option.isSome_iff_exists.1
    (bfsLoop_isSome tree t (insert s ((keys tree).toFinset)) ?_ (fuelBound tree) [] [(s, [s])]
      ?_ ?_)
  · intro e he
    exact Finset.mem_insert.2 (Or.inr (List.mem_toFinset.2 (List.mem_map_of_mem (·.1) he)))
  · intro fp hfp
    rw [List.mem_singleton.1 hfp]
    exact Finset.mem_insert_self s _
  · have h1 : (insert s ((keys tree).toFinset)).card ≤ tree.length + 1 := by
      have h2 := Finset.card_insert_le s ((keys tree).toFinset)
      have h3 := (keys tree).toFinset_card_le
      have h4 : (keys tree).length = tree.length := List.length_map tree (·.1)
      omega
    have h5 : ((insert s ((keys tree).toFinset)) \ (List.toFinset [])).card
        = (insert s ((keys tree).toFinset)).card := by
      simp
    rw [h5]
    have h6 : (insert s ((keys tree).toFinset)).card * (2 * tree.length + 2)
        ≤ (tree.length + 1) * (2 * tree.length + 2) :=
      Nat.mul_le_mul_right _ h1
    unfold fuelBound
    simp only [List.length_singleton]
    omega

theorem bfsLoop_sound (tree : TFTree) (target src : String) (hwf : WFtree tree) :
    ∀ (fuel : Nat) (visited : List String) (queue : List (String × List String))
      (r : List String),
      (∀ fp ∈ queue, fp.2.head? = some src ∧ fp.2.getLast? = some fp.1 ∧
        List.Chain' (childEdge tree) fp.2) →
      bfsLoop tree target fuel visited queue = some r → r ≠ [] →
      r.head? = some src ∧ r.getLast? = some target ∧ List.Chain' (childEdge tree) r := by
  intro fuel
  induction fuel with
  | zero =>
    intro visited queue r hq hr hne
    cases queue with
    | nil =>
      simp only [bfsLoop, Option.some.injEq] at hr
      exact absurd hr.symm hne
    | cons fp rest => simp [bfsLoop] at hr
  | succ fuel ih =>
    intro visited queue r hq hr hne
    cases queue with
    | nil =>
      simp only [bfsLoop, Option.some.injEq] at hr
      exact absurd hr.symm hne
    | cons fp rest =>
      obtain ⟨frame, path⟩ := fp
      simp only [bfsLoop] at hr
      by_cases ht : frame = target
      · rw [if_pos ht] at hr
        have hpq := hq (frame, path) (List.mem_cons_self _ _)
        have hpr : path = r := Option.some.inj hr
        rw [← hpr]
        exact ⟨hpq.1, ht ▸ hpq.2.1, hpq.2.2⟩
      · rw [if_neg ht] at hr
        by_cases hv : frame ∈ visited
        · rw [if_pos hv] at hr
          exact ih visited rest r (fun fp hfp => hq fp (List.mem_cons_of_mem _ hfp)) hr hne
        · rw [if_neg hv] at hr
          refine ih _ _ r ?_ hr hne
          intro fp hfp
          rcases List.mem_append.1 hfp with h1 | h1
          · exact hq fp (List.mem_cons_of_mem _ h1)
          · rcases (mem_bfsNeighbors tree (frame :: visited) frame path fp).1 h1 with
              ⟨e, he, heq, hnv, hor⟩
            have hpq := hq (frame, path) (List.mem_cons_self _ _)
            have hedge : childEdge tree frame e.1 := by
              rcases hor with h2 | h2
              · exact ⟨e, he, rfl, h2⟩
              · exfalso
                have hfe : e.2.frame_id = e.1 := hwf e he
                rw [hfe] at h2
                exact hnv (h2.2 ▸ List.mem_cons_self frame visited)
            rw [heq]
            refine ⟨?_, ?_, ?_⟩
            · cases path with
              | nil => simp at hpq
              | cons a l => simpa using hpq.1
            · simp [List.getLast?_concat]
            · rw [List.chain'_append]
              refine ⟨hpq.2.2, List.chain'_singleton _, ?_⟩
              intro x hx y hy
              rw [hpq.2.1] at hx
              simp only [Option.mem_def, Option.some.injEq, List.head?_cons] at hx hy
              rw [← hx, ← hy]
              exact hedge

theorem chain'_reflTransGen (R : String → String → Prop) :
    ∀ (l : List String) (a b : String), l.head? = some a → l.getLast? = some b →
      List.Chain' R l → Relation.ReflTransGen R a b := by
  intro l
  induction l with
  | nil =>
    intro a b h
    simp at h
  | cons x rest ih =>
    intro a b hh hl hc
    have hax : a = x := (Option.some.inj hh).symm
    subst hax
    cases rest with
    | nil =>
      have hab : a = b := Option.some.inj hl
      rw [hab]
    | cons y rest2 =>
      have hxy : R a y := (List.chain'_cons.1 hc).1
      refine Relation.ReflTransGen.head hxy (ih y b rfl ?_ (List.chain'_cons.1 hc).2)
      rw [← List.getLast?_cons_cons]
      exact hl

theorem findTransformPath_sound (tree : TFTree) (s t : String) (hwf : WFtree tree)
    (hne : s ≠ t) (p : List String) (hp : findTransformPath tree s t = p) (hnn : p ≠ []) :
    p.head? = some s ∧ p.getLast? = some t ∧ List.Chain' (childEdge tree) p := by
  obtain ⟨r, hr⟩ := bfsLoop_total tree s t
  unfold findTransformPath at hp
  rw [if_neg hne, hr] at hp
  simp only [Option.getD_some] at hp
  refine bfsLoop_sound tree t s hwf (fuelBound tree) [] [(s, [s])] p ?_ (by rw [hr, hp]) hnn
  intro fp hfp
  rw [List.mem_singleton.1 hfp]
  exact ⟨rfl, rfl, List.chain'_singleton s⟩

/-! ### Claims -/

/-- C1: the spec's inverse law fails on the code.  On the graph obtained from
the single update `("sensor","world",{(1,0,0),(0,0,0,1)},100)`, resolving
parent-to-child (`"world" → "sensor"`) does return the update's transform,
but resolving child-to-parent (`"sensor" → "world"`) returns `none` instead
of the inverse transform `(-1,0,0)`: the path search never walks an edge
upwards, so the claimed `invert(T)` result is unreachable. -/
theorem claim1_scenario_code_divergence :
    computeTransform demoTree "world" "sensor" = some demoTransform ∧
    computeTransform demoTree "sensor" "world" = none :=
  ⟨by with_unfolding_all rfl, by with_unfolding_all rfl⟩

/-- C2: the BFS neighbor relation of the code is not "children plus parent".
On the graph of the single update `("sensor","world",...)` the two frames are
adjacent (`"sensor"`'s stored parent is `"world"`), yet `findTransformPath`
from `"sensor"` to `"world"` finds nothing: the source's parent-direction
check (line 251) compares an entry's key against that entry's own
`parent_frame_id` instead of the dequeued frame's parent, so the parent is
never enqueued. -/
theorem claim2_neighbor_relation_divergence :
    undirEdge demoTree "world" "sensor" ∧
    findTransformPath demoTree "sensor" "world" = [] := by
  constructor
  · exact Or.inl (by unfold childEdge; decide)
  · decide

/-- C3: for every graph state and frame `f`, `resolve(f, f)` is the identity
transform and `find_path(f, f)` is the one-element path `[f]`, by the early
returns that never touch the graph. -/
theorem claim3_resolve_self_identity (tree : TFTree) (f : String) :
    computeTransform tree f f = some identityTransform ∧
    findTransformPath tree f f = [f] :=
  ⟨by simp [computeTransform], by simp [findTransformPath]⟩

/-- C4: `apply_updates` processes entries in input order (the fold over a
batch steps message by message); each entry overwrites the child's node with
the given parent, transform and timestamp; and the parent is inserted as an
identity root node exactly when it is not a key of the graph once the child
has been upserted (so never when parent = child, and never when it was
already present); the function is total — no update is rejected. -/
theorem claim4_apply_updates_upsert (tree : TFTree) (msg : TFMessage)
    (msgs : List TFMessage) (t : TransformStamped) :
    updateTFTree tree (msg :: msgs)
      = updateTFTree (msg.transforms.foldl applyTransformStamped tree) msgs ∧
    mapGet (applyTransformStamped tree t) t.child_frame_id = some (childNodeOf t) ∧
    mapGet (applyTransformStamped tree t) t.header.frame_id =
      (if t.header.frame_id = t.child_frame_id then some (childNodeOf t)
       else if mapHas tree t.header.frame_id then mapGet tree t.header.frame_id
       else some (rootNodeOf t)) :=
  ⟨rfl, applyTransformStamped_get_child tree t, applyTransformStamped_get_parent tree t⟩

/-- C5: whenever two distinct frames are not connected by any chain of stored
transforms (the reflexive-transitive closure of the undirected adjacency),
`resolve` returns an absent result — for any well-formed graph state. -/
theorem claim5_no_path_returns_absent (tree : TFTree) (s t : String)
    (hwf : WFtree tree) (hne : s ≠ t)
    (hnc : ¬ Relation.ReflTransGen (undirEdge tree) s t) :
    computeTransform tree s t = none := by
  have hmain : findTransformPath tree s t = [] := by
    by_contra hp
    obtain ⟨h1, h2, h3⟩ := findTransformPath_sound tree s t hwf hne _ rfl hp
    exact hnc (chain'_reflTransGen (undirEdge tree) _ s t h1 h2
      (h3.imp (fun a b h => Or.inl h)))
  simp [computeTransform, hne, hmain]

/-- Witness for C5: the frame `"x"` was never referenced by any update, so
resolving it against `"world"` on the scenario graph returns `none`. -/
theorem claim5_witness : computeTransform demoTree "x" "world" = none := by
  have hA : ¬ mapHas demoTree "x" = true := by decide
  have hB : ∀ e ∈ demoTree, ¬ e.2.parent_frame_id = some "x" := by decide
  have hne2 : ∀ c, ¬ undirEdge demoTree "x" c := by
    intro c hc
    rcases hc with ⟨e, he, _, h2⟩ | ⟨e, he, h1, _⟩
    · exact hB e he h2
    · exact hA ((mapHas_iff demoTree "x").2 ⟨e, he, h1⟩)
  refine claim5_no_path_returns_absent demoTree "x" "world" (by unfold WFtree; decide) (by decide) ?_
  intro h
  rcases h.cases_head with h1 | ⟨c, hc, _⟩
  · exact absurd h1 (by decide)
  · exact hne2 c hc

/-- C6: for every finite graph — including graphs whose parent pointers form
cycles — the BFS loop terminates: with the explicit fuel `fuelBound tree` the
loop always reaches a result (the visited set bounds the number of
expansions), it never exhausts the fuel. -/
theorem claim6_bfs_terminates (tree : TFTree) (s t : String) :
    ∃ p, bfsLoop tree t (fuelBound tree) [] [(s, [s])] = some p :=
  bfsLoop_total tree s t

/-- C7: applying the same update twice — inside one batch or in successive
batches — produces exactly the same graph as applying it once. -/
theorem claim7_idempotent_upsert (tree : TFTree) (t : TransformStamped) :
    applyTransformStamped (applyTransformStamped tree t) t = applyTransformStamped tree t ∧
    updateTFTree tree [⟨[t, t]⟩] = updateTFTree tree [⟨[t]⟩] ∧
    updateTFTree (updateTFTree tree [⟨[t]⟩]) [⟨[t]⟩] = updateTFTree tree [⟨[t]⟩] :=
  ⟨applyTransformStamped_idem tree t, applyTransformStamped_idem tree t,
    applyTransformStamped_idem tree t⟩

/-- C8: no operation removes a node: every frame id present before an
`apply_updates` batch is still present afterwards. -/
theorem claim8_frames_never_removed (tree : TFTree) (msgs : List TFMessage) (k : String)
    (h : mapHas tree k = true) : mapHas (updateTFTree tree msgs) k = true :=
  mapHas_updateTFTree tree msgs k h

/-- Witness for C8: `"world"` remains present after a further batch. -/
theorem claim8_witness : mapHas (updateTFTree demoTree [demoMsg]) "world" = true :=
  claim8_frames_never_removed demoTree [demoMsg] "world" (by decide)

/-- C9: every non-empty path returned by the resolver for distinct frames is
a descendant chain: each consecutive pair `(from, to)` satisfies "the node
stored under `to` has `parent_frame_id = from`" — exactly the composer's
forward-edge condition, so its inversion branch is never reached on a path
the resolver produced (for a well-formed, duplicate-free graph, as built by
`updateTFTree`). -/
theorem claim9_paths_descend (tree : TFTree) (s t : String) (p : List String)
    (hwf : WFtree tree) (hnd : (keys tree).Nodup) (hne : s ≠ t)
    (hfp : findTransformPath tree s t = p) (hnn : p ≠ []) :
    List.Chain' (fun a b => ∃ node, mapGet tree b = some node ∧
      node.parent_frame_id = some a) p := by
  obtain ⟨_, _, h3⟩ := findTransformPath_sound tree s t hwf hne p hfp hnn
  refine h3.imp ?_
  rintro a b ⟨e, he, he1, he2⟩
  refine ⟨e.2, ?_, he2⟩
  rw [← he1]
  exact mapGet_eq_of_mem_nodup tree hnd e.1 e.2 (by rw [Prod.mk.eta]; exact he)

/-- Witness for C9: the path the resolver returns for `"world" → "sensor"`
on the scenario graph is a descendant chain. -/
theorem claim9_witness :
    List.Chain' (fun a b => ∃ node, mapGet demoTree b = some node ∧
      node.parent_frame_id = some a) ["world", "sensor"] :=
  claim9_paths_descend demoTree "world" "sensor" ["world", "sensor"]
    (by unfold WFtree; decide) (by decide) (by decide) (by decide) (by decide)

/-- C10: every graph reachable from the empty map by `apply_updates` batches
keeps each entry's key equal to the stored node's `frame_id`, and every node
whose `parent_frame_id` is absent (inserted only as a parent placeholder)
carries the identity transform. -/
theorem claim10_store_invariants (tree : TFTree) (h : Built tree) :
    WFtree tree ∧ RootsIdentity tree :=
  invariant_built tree h

/-- Witness for C10: the invariants hold on the scenario graph. -/
theorem claim10_witness : WFtree demoTree ∧ RootsIdentity demoTree :=
  claim10_store_invariants demoTree (Built.step [] [demoMsg] Built.empty)

end WrenchTF
